import Mathlib

/-!
Verification of the plan-file model of the `planc` TUI.

Strings are embedded as `List Char` (Go strings are byte sequences; all the
inputs the program manipulates are compared and sliced at character
granularity, and UTF-8 byte order coincides with code-point order, so this
embedding is faithful for the operations modelled here).  Pure functions of
the source (`parseFrontmatter`, `setFrontmatter`'s serialization,
`parseLabels`, `sortPlans`, `filterPlans`, `computeRenderLines`,
`injectComment`, `removeComment`, `replaceComment`, the per-file part of
`scanPlans`) are translated directly; file-system access is factored out by
passing file contents and stat times as arguments.
-/

namespace Planc

abbrev Str := List Char

/-- ASCII fragment of Go's `unicode.IsSpace`, used by `strings.TrimSpace`
and `strings.Fields`. -/
def isSpace (c : Char) : Bool :=
  c = ' ' || c = '\t' || c = '\n' || c = '\x0b' || c = '\x0c' || c = '\r'

/-- `strings.TrimSpace`: drop leading and trailing whitespace. -/
def trimSpace (s : Str) : Str :=
  ((s.dropWhile isSpace).reverse.dropWhile isSpace).reverse

/-- `strings.Split s (String.singleton sep)`: split at every occurrence of
`sep`; never returns the empty list. -/
def splitOnChar (sep : Char) : Str → List Str
  | [] => [[]]
  | c :: rest =>
    if c = sep then [] :: splitOnChar sep rest
    else
      match splitOnChar sep rest with
      | [] => [[c]]
      | l :: ls => (c :: l) :: ls

/-- `strings.Join ls (String.singleton sep)`. -/
def joinWith (sep : Char) : List Str → Str
  | [] => []
  | [l] => l
  | l :: ls => l ++ sep :: joinWith sep ls

/-- First pass of the CR/LF normalization in `parseFrontmatter`:
`strings.ReplaceAll content "\r\n" "\n"` (left-to-right, non-overlapping). -/
def replaceCRLF : Str → Str
  | '\r' :: '\n' :: rest => '\n' :: replaceCRLF rest
  | c :: rest => c :: replaceCRLF rest
  | [] => []

/-- Second pass: `strings.ReplaceAll content "\r" "\n"`. -/
def replaceCR (s : Str) : Str :=
  s.map (fun c => if c = '\r' then '\n' else c)

/-- `strings.Cut line ":"`: split at the first occurrence of the separator;
`none` when the separator does not occur. -/
def cutAt (sep : Char) : Str → Option (Str × Str)
  | [] => none
  | c :: rest =>
    if c = sep then some ([], rest)
    else (cutAt sep rest).map (fun p => (c :: p.1, p.2))

/-- A Go `map[string]string`, represented as an association list.  The
operations below preserve key uniqueness; iteration-order-sensitive parts of
the source sort keys before use, so the representation order is irrelevant
to every modelled output. -/
abbrev FieldMap := List (Str × Str)

def lookupF : FieldMap → Str → Option Str
  | [], _ => none
  | (k, v) :: rest, key => if k = key then some v else lookupF rest key

/-- Go map assignment `m[k] = v`: overwrite if present, otherwise add. -/
def insertF (m : FieldMap) (k v : Str) : FieldMap :=
  if (lookupF m k).isSome then
    m.map (fun p => if p.1 = k then (k, v) else p)
  else m ++ [(k, v)]

/-- Go `delete(m, k)`. -/
def eraseF (m : FieldMap) (k : Str) : FieldMap :=
  m.filter (fun p => decide (p.1 ≠ k))

/-- The frontmatter fence line `---`. -/
def fenceLine : Str := "---".data

/-- `parseFrontmatter` (main.go:487-519): extract flat `key: value`
frontmatter and the body after the closing fence.  CR/LF is normalized to
LF first; the (normalized) whole content is the body when no well-formed
frontmatter block is present.  Keys and values are trimmed; entries with an
empty key or value are dropped. -/
def parseFrontmatter (content : Str) : FieldMap × Str :=
  let content := replaceCR (replaceCRLF content)
  let lines := splitOnChar '\n' content
  match lines with
  | [] => ([], content)
  | first :: rest =>
    if lines.length < 2 ∨ first ≠ fenceLine then ([], content)
    else
      match rest.findIdx? (fun l => decide (l = fenceLine)) with
      | none => ([], content)
      | some i =>
        let fields := (rest.take i).foldl (fun fs line =>
          match cutAt ':' line with
          | none => fs
          | some kv =>
            let k := trimSpace kv.1
            let v := trimSpace kv.2
            if k ≠ [] ∧ v ≠ [] then insertF fs k v else fs) []
        (fields, joinWith '\n' (rest.drop (i + 1)))

/-- Lexicographic string order (`s < t` or `s = t`), the order used by Go's
`sort.Strings`; comparison is on code points, which agrees with UTF-8 byte
order. -/
def strLe : Str → Str → Bool
  | [], _ => true
  | _ :: _, [] => false
  | a :: as, b :: bs =>
    if a.toNat < b.toNat then true
    else if b.toNat < a.toNat then false
    else strLe as bs

/-- `sort.Strings`: since equal list entries are identical strings, every
sort consistent with the lexicographic order produces the same output list,
so an insertion sort is an exact model of Go's unstable sort here. -/
def sortStrs (l : List Str) : List Str :=
  l.insertionSort (fun a b => strLe a b = true)

/-- The recognized frontmatter keys, in the fixed order `setFrontmatter`
writes them (main.go:757). -/
def recognizedKeys : List Str := ["status".data, "labels".data, "project".data]

/-- One serialized frontmatter line `k: v\n` (`fmt.Fprintf "%s: %s\n"`). -/
def fmLine (k v : Str) : Str := k ++ ':' :: ' ' :: v ++ ['\n']

/-- The `(key, value)` pairs written by the first serialization loop of
`setFrontmatter` (main.go:757-762): recognized keys in fixed order, when
present with a non-empty value. -/
def recognizedPairs (fields : FieldMap) : List (Str × Str) :=
  recognizedKeys.filterMap (fun key =>
    match lookupF fields key with
    | some v => if v ≠ [] then some (key, v) else none
    | none => none)

/-- The pairs written by the second loop (main.go:764-775): all keys not
already written, sorted, again only with non-empty values. -/
def extraPairs (fields : FieldMap) : List (Str × Str) :=
  let written := (recognizedPairs fields).map Prod.fst
  let extra := sortStrs ((fields.map Prod.fst).filter (fun k => decide (¬ k ∈ written)))
  extra.filterMap (fun k =>
    match lookupF fields k with
    | some v => if v ≠ [] then some (k, v) else none
    | none => none)

/-- The serialization performed by `setFrontmatter` (main.go:752-780): when
any field remains (empty-valued ones included, per `len(existing) > 0`),
an opening fence, the recognized then the sorted unknown keys, a closing
fence, then the body; otherwise the bare body. -/
def serializeFrontmatter (fields : FieldMap) (body : Str) : Str :=
  if fields ≠ [] then
    "---\n".data
      ++ ((recognizedPairs fields ++ extraPairs fields).map (fun p => fmLine p.1 p.2)).flatten
      ++ "---\n".data ++ body
  else body

/-- The update-merge loop of `setFrontmatter` (main.go:745-751): an empty
value deletes the key, a non-empty one overwrites it. -/
def mergeUpdates (existing : FieldMap) (updates : FieldMap) : FieldMap :=
  updates.foldl (fun fs kv => if kv.2 = [] then eraseF fs kv.1 else insertF fs kv.1 kv.2) existing

/-- `setFrontmatter` (main.go:734-786) as a content transformation: the
bytes written back for a file whose current bytes are `content`. -/
def setFrontmatterContent (content : Str) (updates : FieldMap) : Str :=
  let pr := parseFrontmatter content
  serializeFrontmatter (mergeUpdates pr.1 updates) pr.2

/-- `parseLabels` (main.go:709-724): split a comma-separated labels string,
trim and lowercase each part, drop empties, sort.  `Char.toLower` models the
ASCII fragment of `strings.ToLower`. -/
def parseLabels (s : Str) : List Str :=
  if s = [] then []
  else
    sortStrs ((splitOnChar ',' s).filterMap (fun p =>
      let p := (trimSpace p).map Char.toLower
      if p ≠ [] then some p else none))

/-- `strings.TrimSuffix`. -/
def trimSuffix (s suffix : Str) : Str :=
  if suffix.isSuffixOf s then s.take (s.length - suffix.length) else s

/-- `headerFromBody` (main.go:528-536): the text of the first `# ` heading. -/
def headerFromBodyLines : List Str → Str
  | [] => []
  | l :: ls =>
    let t := trimSpace l
    if "# ".data.isPrefixOf t then trimSpace (t.drop 2) else headerFromBodyLines ls

def headerFromBody (body : Str) : Str :=
  headerFromBodyLines (splitOnChar '\n' body)

/-- The whitespace class `\s` of Go's regexp package: `[\t\n\f\r ]`. -/
def isRegexSpace (c : Char) : Bool :=
  c = '\t' || c = '\n' || c = '\x0c' || c = '\r' || c = ' '

/-- The literal `**[comment]:**` of `commentRegex` (comment.go:18). -/
def commentLiteral : Str := "**[comment]:**".data

/-- `commentRegex.FindStringSubmatch` on a single line: the regex
`^>\s*\*\*\[comment\]:\*\*\s*(.+)$`.  The second branch of the final match
models the one backtracking case: when everything after the literal is
whitespace, `\s*` gives one character back to `(.+)`. -/
def matchComment (l : Str) : Option Str :=
  match l with
  | '>' :: rest =>
    if commentLiteral.isPrefixOf (rest.dropWhile isRegexSpace) then
      let r2 := (rest.dropWhile isRegexSpace).drop commentLiteral.length
      match r2.dropWhile isRegexSpace, r2.getLast? with
      | [], some c => some [c]
      | [], none => none
      | r3, _ => some r3
    else none
  | _ => none

/-- `bodyHasComments` (comment.go:41-57): true when some line outside a
fenced code block matches the comment pattern. -/
def bodyHasCommentsLines : List Str → Bool → Bool
  | [], _ => false
  | l :: ls, inFence =>
    let t := trimSpace l
    if "```".data.isPrefixOf t then bodyHasCommentsLines ls (!inFence)
    else if inFence then bodyHasCommentsLines ls inFence
    else if (matchComment t).isSome then true
    else bodyHasCommentsLines ls inFence

def bodyHasComments (body : Str) : Bool :=
  bodyHasCommentsLines (splitOnChar '\n' body) false

/-- The `plan` record (model.go).  `created` and `modified` are `time.Time`
values modelled as integers (Unix milliseconds); the zero `time.Time` is 0. -/
structure Plan where
  dir : Str
  file : Str
  status : Str
  project : Str
  labels : List Str
  title : Str
  created : Int
  modified : Int
  hasComments : Bool
deriving DecidableEq

/-- `plan.path()`: `filepath.Join(dir, file)`, modelled as separator
concatenation (no lexical cleaning; the path is used only as an identifier). -/
def Plan.path (p : Plan) : Str := p.dir ++ '/' :: p.file

/-- The per-file body of the `scanPlans` loop (main.go:540-589): build a
plan from a file's directory, name, bytes and stat times.  This includes the
two read-time migrations: legacy `pending` status becomes `reviewed`, and a
legacy `project` becomes the single label when `labels` is absent or empty.
Pure: reading never writes the file back. -/
def scanPlanContent (dir name : Str) (content : Str) (created modified : Int) : Plan :=
  let pr := parseFrontmatter content
  let fm := pr.1
  let body := pr.2
  let title0 := headerFromBody body
  let title := if title0 = [] then trimSuffix name ".md".data else title0
  let labels0 := parseLabels ((lookupF fm "labels".data).getD [])
  let project := (lookupF fm "project".data).getD []
  let labels := if labels0 = [] ∧ project ≠ [] then [project] else labels0
  let status0 := (lookupF fm "status".data).getD []
  let status := if status0 = "pending".data then "reviewed".data else status0
  { dir := dir, file := name, status := status, project := project, labels := labels,
    title := title, created := created, modified := modified,
    hasComments := bodyHasComments body }

/-- The comparison closure of `sortPlans` (main.go:701-705):
`plans[i].created.After(plans[j].created)`. -/
def planAfter (a b : Plan) : Bool := decide (b.created < a.created)

/-- Insert into a sorted prefix exactly as the insertion sort used by Go's
`sort.Slice` does for short slices: the new element is placed before the
first element it is strictly after, hence after every element with an equal
or later `created` time (stable). -/
def insertPlan (p : Plan) : List Plan → List Plan
  | [] => [p]
  | q :: qs => if planAfter p q then p :: q :: qs else q :: insertPlan p qs

/-- `sortPlans` (main.go:701-705): `sort.Slice` with the `created`-descending
comparison.  `sort.Slice` guarantees only some ordering consistent with the
comparison; for slices shorter than 12 elements it is exactly this insertion
sort. -/
def sortPlans (plans : List Plan) : List Plan :=
  plans.foldl (fun acc p => insertPlan p acc) []

/-- Two plans with the same `created` time and different paths, used to
exhibit the tie behaviour of `sortPlans`. -/
def tiePlanA : Plan :=
  { dir := "d".data, file := "a.md".data, status := [], project := [], labels := [],
    title := [], created := 5, modified := 0, hasComments := false }

def tiePlanB : Plan :=
  { dir := "d".data, file := "b.md".data, status := [], project := [], labels := [],
    title := [], created := 5, modified := 0, hasComments := false }

/-- `hasLabel` (main.go:837-844). -/
def hasLabel : List Str → Str → Bool
  | [], _ => false
  | l :: ls, target => if l = target then true else hasLabel ls target

/-- `filterPlans` (main.go:817-835).  `keepFiles` is the keep set of full
paths; `installed` is the install `time.Time` (0 = the zero time). -/
def filterPlans (plans : List Plan) (showDone : Bool) (keepFiles : List Str)
    (labelFilter : Str) (installed : Int) : List Plan :=
  match plans with
  | [] => []
  | p :: rest =>
    let recRest := filterPlans rest showDone keepFiles labelFilter installed
    if labelFilter ≠ [] ∧ hasLabel p.labels labelFilter = false then recRest
    else if showDone = false ∧ p.status = "done".data ∧ ¬ p.path ∈ keepFiles then recRest
    else if showDone = false ∧ p.status = [] ∧ ¬ p.path ∈ keepFiles
        ∧ (installed = 0 ∨ p.modified < installed) then recRest
    else p :: recRest

/-- The retention condition exactly as the specification states it, for
comparison with `filterPlans`. -/
def filterSpecKeeps (showDone : Bool) (keepFiles : List Str) (labelFilter : Str)
    (installed : Int) (p : Plan) : Prop :=
  (labelFilter ≠ [] → labelFilter ∈ p.labels) ∧
  (showDone = false → p.status = "done".data → p.path ∈ keepFiles) ∧
  (showDone = false → p.status = [] → p.path ∉ keepFiles →
    installed ≠ 0 ∧ ¬ p.modified < installed)

instance (showDone : Bool) (keepFiles : List Str) (labelFilter : Str)
    (installed : Int) (p : Plan) :
    Decidable (filterSpecKeeps showDone keepFiles labelFilter installed p) := by
  unfold filterSpecKeeps
  exact @instDecidableAnd _ _ inferInstance (@instDecidableAnd _ _ inferInstance inferInstance)

/-- A `tocEntry` (comment.go:20-26). -/
structure TocEntry where
  level : Nat
  text : Str
  rawLine : Nat
  renderLine : Nat
  isComment : Bool
deriving DecidableEq

/-- `strings.Fields`: split around runs of whitespace. -/
def splitFields (s : Str) : List Str :=
  match s with
  | [] => []
  | c :: rest =>
    if isSpace c then splitFields rest
    else (c :: rest.takeWhile (fun c => !isSpace c)) ::
      splitFields (rest.dropWhile (fun c => !isSpace c))
termination_by s.length
decreasing_by
  all_goals simp only [List.length_cons]
  · omega
  · exact Nat.lt_succ_of_le (List.Sublist.length_le (List.dropWhile_sublist _))

/-- The punctuation glamour may detach from a code span: `,.;:!?)`
(comment.go:122). -/
def isDetachPunct (c : Char) : Bool :=
  c = ',' || c = '.' || c = ';' || c = ':' || c = '!' || c = '?' || c = ')'

/-- `headingWords` (comment.go:118-128): strip backticks, split on
whitespace, right-trim detachable punctuation, drop empties.  The backtick
character is written as `Char.ofNat 96`. -/
def headingWords (s : Str) : List Str :=
  (splitFields (s.filter (fun c => decide (c ≠ Char.ofNat 96)))).filterMap (fun f =>
    let t := (f.reverse.dropWhile isDetachPunct).reverse
    if t ≠ [] then some t else none)

/-- `strings.Index`: first index at which `w` occurs in `s`. -/
def strIndex (w : Str) : Str → Option Nat
  | [] => if w.isPrefixOf [] then some 0 else none
  | c :: rest =>
    if w.isPrefixOf (c :: rest) then some 0
    else (strIndex w rest).map (· + 1)

/-- `containsWordsInOrder` (comment.go:131-141): all words occur in `s`, in
order and without overlap.  The Go loop keeps a position `pos` into `s`;
recursing on the suffix after each match is the same computation. -/
def containsWordsInOrder (s : Str) (words : List Str) : Bool :=
  match words with
  | [] => true
  | w :: ws =>
    match strIndex w s with
    | none => false
    | some idx => containsWordsInOrder (s.drop (idx + w.length)) ws

/-- The inner search loop of `computeRenderLines` (comment.go:169-175):
first line index `j ≥ sf` whose stripped text contains the words in order. -/
def findFrom (stripped : List Str) (words : List Str) (sf : Nat) : Option Nat :=
  ((stripped.drop sf).findIdx? (fun l => containsWordsInOrder l words)).map (· + sf)

/-- The entry loop of `computeRenderLines` with its `searchFrom` cursor:
entries with empty trimmed text or no match tokens are skipped; a matched
entry gets `renderLine := j` and the cursor advances to `j + 1`. -/
def crlGo (stripped : List Str) : Nat → List TocEntry → List TocEntry
  | _, [] => []
  | sf, e :: rest =>
    let text := trimSpace e.text
    if text = [] then e :: crlGo stripped sf rest
    else
      let words := headingWords text
      if words = [] then e :: crlGo stripped sf rest
      else
        match findFrom stripped words sf with
        | none => e :: crlGo stripped sf rest
        | some j => { e with renderLine := j } :: crlGo stripped (j + 1) rest

/-- The match results of the same loop (`none` = entry skipped or
unmatched, `some j` = matched at rendered line `j`). -/
def crlMatches (stripped : List Str) : Nat → List TocEntry → List (Option Nat)
  | _, [] => []
  | sf, e :: rest =>
    let text := trimSpace e.text
    if text = [] then none :: crlMatches stripped sf rest
    else
      let words := headingWords text
      if words = [] then none :: crlMatches stripped sf rest
      else
        match findFrom stripped words sf with
        | none => none :: crlMatches stripped sf rest
        | some j => some j :: crlMatches stripped (j + 1) rest

/-- `computeRenderLines` (comment.go:147-177).  The rendered output is split
into lines which are ANSI-stripped once; `ansi.Strip` is an external library
function and is passed in as `strip`.  Every property proved below holds for
an arbitrary `strip`. -/
def computeRenderLines (strip : Str → Str) (toc : List TocEntry) (rendered : Str) :
    List TocEntry :=
  if toc = [] then toc
  else crlGo ((splitOnChar '\n' rendered).map strip) 0 toc

/-- A line that `TrimSpace` sends to the empty string. -/
def isBlank (l : Str) : Bool := trimSpace l = []

/-- The `rest`-adjustment shared by `injectComment` and `removeComment`:
drop a single leading blank line. -/
def dropLeadingBlank (ls : List Str) : List Str :=
  match ls with
  | x :: xs => if isBlank x then xs else ls
  | [] => []

/-- The comment marker written by `injectComment` and `replaceComment`:
`"> **[comment]:** "` before the text. -/
def commentMarker : Str := "> **[comment]:** ".data

/-- `injectComment` (comment.go:182-206): insert a blank line, the comment,
and a blank line after the heading line; a blank line that followed the
heading is consumed.  Out-of-range indices return the body unchanged. -/
def injectComment (rawBody : Str) (headingLine : Int) (text : Str) : Str :=
  let lines := splitOnChar '\n' rawBody
  if headingLine < 0 ∨ (lines.length : Int) ≤ headingLine then rawBody
  else
    let h := headingLine.toNat
    let comment := commentMarker ++ text
    let front := lines.take (h + 1) ++ [[]] ++ [comment] ++ [[]]
    let result :=
      if h + 1 < lines.length then front ++ dropLeadingBlank (lines.drop (h + 1))
      else front
    joinWith '\n' result

/-- `removeComment` (comment.go:209-232): delete the line, then a following
blank line, then a preceding blank line.  Out-of-range indices return the
body unchanged. -/
def removeComment (rawBody : Str) (commentLine : Int) : Str :=
  let lines := splitOnChar '\n' rawBody
  if commentLine < 0 ∨ (lines.length : Int) ≤ commentLine then rawBody
  else
    let c := commentLine.toNat
    let front := lines.take c
    let rest := dropLeadingBlank (lines.drop (c + 1))
    let front' :=
      match front.getLast? with
      | some last => if isBlank last then front.dropLast else front
      | none => front
    joinWith '\n' (front' ++ rest)

/-- `replaceComment` (comment.go:235-243): overwrite the line in place.
Out-of-range indices return the body unchanged. -/
def replaceComment (rawBody : Str) (commentLine : Int) (newText : Str) : Str :=
  let lines := splitOnChar '\n' rawBody
  if commentLine < 0 ∨ (lines.length : Int) ≤ commentLine then rawBody
  else joinWith '\n' (lines.set commentLine.toNat (commentMarker ++ newText))

/-! ### Watcher / self-write suppression model

`lastSelfWrite` is a process-wide millisecond timestamp stored immediately
before every write the core initiates (main.go:784, comment.go:289); the
watcher (`watchDir`) drops a coalesced batch when fewer than 500 ms have
elapsed since that timestamp.  The interaction is modelled as a step
relation over a state holding the current time and the stored timestamp;
sleeps and debouncing appear as time advancing between steps. -/

structure WatchState where
  now : Int
  lastSelfWrite : Int
deriving DecidableEq

inductive WatchEvent where
  /-- Wall-clock time advances by `d` milliseconds. -/
  | tick (d : Nat)
  /-- A core-initiated write: `lastSelfWrite.Store(time.Now().UnixMilli())`
  immediately before `os.WriteFile`. -/
  | selfWrite
  /-- A `.md` filesystem event arrives and is accumulated into the batch. -/
  | mdEvent
  /-- `watchDir` returns a `fileChangedMsg` for the drained batch. -/
  | emitBatch
  /-- `watchDir` drops the drained batch (self-write suppression). -/
  | dropBatch
deriving DecidableEq

/-- One step of the watcher/store system.  `emitBatch` is possible only when
`time.Since(time.UnixMilli(lastSelfWrite.Load())) < 500ms` is false
(part_001:318-320); `dropBatch` only when it is true. -/
inductive WStep : WatchState → WatchEvent → WatchState → Prop
  | tick (s : WatchState) (d : Nat) : WStep s (.tick d) ⟨s.now + d, s.lastSelfWrite⟩
  | selfWrite (s : WatchState) : WStep s .selfWrite ⟨s.now, s.now⟩
  | mdEvent (s : WatchState) : WStep s .mdEvent s
  | emitBatch (s : WatchState) (h : ¬ s.now - s.lastSelfWrite < 500) : WStep s .emitBatch s
  | dropBatch (s : WatchState) (h : s.now - s.lastSelfWrite < 500) : WStep s .dropBatch s

/-- A run of the system: the list pairs each event with the state reached
after it. -/
inductive WRun : WatchState → List (WatchEvent × WatchState) → Prop
  | nil (s : WatchState) : WRun s []
  | cons {s s' : WatchState} {e : WatchEvent} {tr : List (WatchEvent × WatchState)} :
      WStep s e s' → WRun s' tr → WRun s ((e, s') :: tr)

/-! ## Character and string lemmas -/

lemma char_toNat_ofNat {n : Nat} (h : n < 0xd800) : (Char.ofNat n).toNat = n := by
  rw [Char.ofNat, dif_pos (Or.inl h)]
  simp [Char.toNat, Char.ofNatAux, UInt32.toNat, BitVec.toNat_ofNatLt]

lemma char_eq_ofNat_of_toNat {c : Char} {n : Nat} (h : c.toNat = n) : c = Char.ofNat n := by
  rw [← h, Char.ofNat_toNat]

lemma toLower_idem (c : Char) : c.toLower.toLower = c.toLower := by
  unfold Char.toLower
  by_cases h : c.toNat ≥ 65 ∧ c.toNat ≤ 90
  · rw [if_pos h]
    have h32 : (Char.ofNat (c.toNat + 32)).toNat = c.toNat + 32 :=
      char_toNat_ofNat (by omega)
    rw [if_neg (by rw [h32]; omega)]
  · rw [if_neg h, if_neg h]

lemma isSpace_iff_toNat (c : Char) :
    isSpace c = true ↔
      (c.toNat = 32 ∨ c.toNat = 9 ∨ c.toNat = 10 ∨ c.toNat = 11 ∨
        c.toNat = 12 ∨ c.toNat = 13) := by
  constructor
  · intro h
    simp only [isSpace, Bool.or_eq_true, decide_eq_true_eq] at h
    rcases h with ((((h | h) | h) | h) | h) | h <;> subst h <;> simp [Char.toNat]
  · intro h
    rcases h with h | h | h | h | h | h <;>
      rw [char_eq_ofNat_of_toNat h] <;> decide

lemma isSpace_toLower (c : Char) : isSpace c.toLower = isSpace c := by
  unfold Char.toLower
  by_cases h : c.toNat ≥ 65 ∧ c.toNat ≤ 90
  · rw [if_pos h]
    have h32 : (Char.ofNat (c.toNat + 32)).toNat = c.toNat + 32 :=
      char_toNat_ofNat (by omega)
    have h1 : isSpace (Char.ofNat (c.toNat + 32)) = false := by
      rw [← Bool.not_eq_true, isSpace_iff_toNat, h32]; omega
    have h2 : isSpace c = false := by
      rw [← Bool.not_eq_true, isSpace_iff_toNat]; omega
    rw [h1, h2]
  · rw [if_neg h]

lemma dropWhile_idem (p : Char → Bool) (l : Str) :
    (l.dropWhile p).dropWhile p = l.dropWhile p := by
  induction l with
  | nil => rfl
  | cons c rest ih =>
    by_cases hc : p c
    · simp [List.dropWhile_cons, hc, ih]
    · simp [List.dropWhile_cons, hc]

lemma dropWhile_fixed_of_prefix {p : Char → Bool} {z y : Str}
    (hy : y.dropWhile p = y) (hz : z <+: y) : z.dropWhile p = z := by
  cases z with
  | nil => rfl
  | cons c zs =>
    obtain ⟨t, ht⟩ := hz
    have hc : ¬ (p c = true) := by
      intro hcc
      rw [← ht, List.cons_append, List.dropWhile_cons_of_pos hcc] at hy
      have hle : ((zs ++ t).dropWhile p).length ≤ (zs ++ t).length :=
        (List.dropWhile_sublist _).length_le
      rw [hy] at hle
      simp at hle
    exact List.dropWhile_cons_of_neg hc

/-- `trimSpace l` is a prefix of `l.dropWhile isSpace`. -/
lemma trimSpace_prefix_dropWhile (l : Str) :
    trimSpace l <+: l.dropWhile isSpace := by
  unfold trimSpace
  have h1 : (l.dropWhile isSpace).reverse.dropWhile isSpace <:+ (l.dropWhile isSpace).reverse :=
    List.dropWhile_suffix _
  have h2 := List.reverse_prefix.mpr h1
  rwa [List.reverse_reverse] at h2

lemma trimSpace_idem (l : Str) : trimSpace (trimSpace l) = trimSpace l := by
  have hfix : (trimSpace l).dropWhile isSpace = trimSpace l :=
    dropWhile_fixed_of_prefix (dropWhile_idem _ _) (trimSpace_prefix_dropWhile l)
  show ((((trimSpace l).dropWhile isSpace).reverse.dropWhile isSpace).reverse) = trimSpace l
  rw [hfix]
  unfold trimSpace
  rw [List.reverse_reverse, dropWhile_idem]

lemma trimSpace_map_toLower (l : Str) :
    trimSpace (l.map Char.toLower) = (trimSpace l).map Char.toLower := by
  have hfun : (isSpace ∘ Char.toLower) = isSpace := funext fun c => isSpace_toLower c
  have hdw : ∀ x : Str, (x.map Char.toLower).dropWhile isSpace
      = (x.dropWhile isSpace).map Char.toLower := by
    intro x
    rw [List.dropWhile_map, hfun]
  unfold trimSpace
  rw [hdw, ← List.map_reverse, hdw, List.map_reverse]

lemma map_toLower_idem (l : Str) :
    (l.map Char.toLower).map Char.toLower = l.map Char.toLower := by
  rw [List.map_map]
  exact List.map_congr_left (fun c _ => toLower_idem c)

/-! ## Lexicographic order lemmas -/

lemma strLe_total (a b : Str) : strLe a b = true ∨ strLe b a = true := by
  induction a generalizing b with
  | nil => left; rfl
  | cons x xs ih =>
    cases b with
    | nil => right; rfl
    | cons y ys =>
      by_cases hxy : x.toNat < y.toNat
      · left; simp [strLe, hxy]
      · by_cases hyx : y.toNat < x.toNat
        · right; simp [strLe, hyx]
        · rcases ih ys with h | h
          · left; simp [strLe, hxy, hyx, h]
          · right; simp [strLe, hxy, hyx, h]

lemma strLe_trans {a b c : Str} (h1 : strLe a b = true) (h2 : strLe b c = true) :
    strLe a c = true := by
  induction a generalizing b c with
  | nil => rfl
  | cons x xs ih =>
    cases b with
    | nil => simp [strLe] at h1
    | cons y ys =>
      cases c with
      | nil => simp [strLe] at h2
      | cons z zs =>
        simp only [strLe] at h1 h2 ⊢
        by_cases hxz : x.toNat < z.toNat
        · rw [if_pos hxz]
        · rw [if_neg hxz]
          by_cases hxy : x.toNat < y.toNat
          · by_cases hyz : y.toNat < z.toNat
            · exact absurd (by omega : x.toNat < z.toNat) hxz
            · rw [if_neg hyz] at h2
              by_cases hzy : z.toNat < y.toNat
              · rw [if_pos hzy] at h2; exact absurd h2 (by simp)
              · exact absurd (by omega : x.toNat < z.toNat) hxz
          · rw [if_neg hxy] at h1
            by_cases hyx : y.toNat < x.toNat
            · rw [if_pos hyx] at h1; exact absurd h1 (by simp)
            · rw [if_neg hyx] at h1
              by_cases hyz : y.toNat < z.toNat
              · exact absurd (by omega : x.toNat < z.toNat) hxz
              · rw [if_neg hyz] at h2
                by_cases hzy : z.toNat < y.toNat
                · rw [if_pos hzy] at h2; exact absurd h2 (by simp)
                · rw [if_neg hzy] at h2
                  rw [if_neg (by omega : ¬ z.toNat < x.toNat)]
                  exact ih h1 h2


instance : IsTotal Str (fun a b => strLe a b = true) := ⟨strLe_total⟩

instance : IsTrans Str (fun a b => strLe a b = true) := ⟨fun _ _ _ => strLe_trans⟩

lemma sortStrs_sorted (l : List Str) :
    (sortStrs l).Pairwise (fun a b => strLe a b = true) :=
  List.sorted_insertionSort _ l

lemma sortStrs_perm (l : List Str) : List.Perm (sortStrs l) l :=
  List.perm_insertionSort _ l

/-! ## C3 — label normalization on read -/

/-- C3 (counterexample): `parseLabels` does not deduplicate.  Reading
`"foo, Foo"` yields `["foo", "foo"]`, not the single label `["foo"]` the
claim requires. -/
theorem parseLabels_no_dedup :
    parseLabels ("foo, Foo".data) = ["foo".data, "foo".data] ∧
    parseLabels ("foo, Foo".data) ≠ ["foo".data] ∧
    ¬ (parseLabels ("foo, Foo".data)).Nodup := by
  refine ⟨by decide, by decide, by decide⟩

/-- C3 (amended): every label produced by `parseLabels` is non-empty,
fixed under lowercasing and under whitespace trimming, and the list is
sorted; duplicates are not removed. -/
theorem parseLabels_normalized (s : Str) :
    (parseLabels s).Pairwise (fun a b => strLe a b = true) ∧
    ∀ l ∈ parseLabels s, l ≠ [] ∧ l.map Char.toLower = l ∧ trimSpace l = l := by
  unfold parseLabels
  by_cases hs : s = []
  · simp [hs]
  · rw [if_neg hs]
    refine ⟨sortStrs_sorted _, ?_⟩
    intro l hl
    have hl2 : l ∈ (splitOnChar ',' s).filterMap (fun p =>
        let p := (trimSpace p).map Char.toLower
        if p ≠ [] then some p else none) := (sortStrs_perm _).mem_iff.mp hl
    rw [List.mem_filterMap] at hl2
    obtain ⟨p, _, hp⟩ := hl2
    simp only at hp
    by_cases hne : (trimSpace p).map Char.toLower ≠ []
    · rw [if_pos hne] at hp
      obtain rfl : (trimSpace p).map Char.toLower = l := Option.some_injective _ hp
      refine ⟨hne, map_toLower_idem _, ?_⟩
      rw [trimSpace_map_toLower, trimSpace_idem]
    · rw [if_neg hne] at hp
      exact absurd hp (by simp)

/-- C3 (witness): the amended statement at the concrete input `"b, A"`. -/
theorem parseLabels_normalized_witness :
    (parseLabels ("b, A".data)).Pairwise (fun a b => strLe a b = true) ∧
    ("a".data ≠ [] ∧ ("a".data).map Char.toLower = "a".data ∧ trimSpace ("a".data) = "a".data) :=
  ⟨(parseLabels_normalized ("b, A".data)).1,
    (parseLabels_normalized ("b, A".data)).2 ("a".data) (by decide)⟩

/-! ## C4 — plan sort order -/

lemma insertPlan_perm (p : Plan) (l : List Plan) :
    List.Perm (insertPlan p l) (p :: l) := by
  induction l with
  | nil => rfl
  | cons q qs ih =>
    unfold insertPlan
    by_cases h : planAfter p q = true
    · rw [if_pos h]
    · rw [if_neg h]
      exact (ih.cons q).trans (List.Perm.swap p q qs)

lemma foldl_insertPlan_perm (l : List Plan) :
    ∀ acc : List Plan, List.Perm (l.foldl (fun acc p => insertPlan p acc) acc) (l ++ acc) := by
  induction l with
  | nil => intro acc; simp
  | cons p rest ih =>
    intro acc
    rw [List.foldl_cons]
    refine (ih (insertPlan p acc)).trans ?_
    refine (List.Perm.append_left rest (insertPlan_perm p acc)).trans ?_
    exact List.perm_middle.trans (by rfl)

lemma insertPlan_pairwise {p : Plan} {l : List Plan}
    (h : l.Pairwise (fun a b => b.created ≤ a.created)) :
    (insertPlan p l).Pairwise (fun a b => b.created ≤ a.created) := by
  induction l with
  | nil => exact List.pairwise_singleton _ p
  | cons q qs ih =>
    rw [List.pairwise_cons] at h
    unfold insertPlan
    by_cases hpq : planAfter p q = true
    · rw [if_pos hpq]
      have hq : q.created < p.created := by
        have := of_decide_eq_true hpq
        exact this
      refine List.Pairwise.cons ?_ (List.Pairwise.cons h.1 h.2)
      intro b hb
      rcases List.mem_cons.mp hb with rfl | hb
      · omega
      · have := h.1 b hb
        omega
    · rw [if_neg hpq]
      have hq : p.created ≤ q.created := by
        have : ¬ q.created < p.created := fun hc => hpq (decide_eq_true hc)
        omega
      refine List.Pairwise.cons ?_ (ih h.2)
      intro b hb
      rcases List.mem_cons.mp ((insertPlan_perm p qs).mem_iff.mp hb) with rfl | hb2
      · exact hq
      · exact h.1 b hb2

lemma foldl_insertPlan_pairwise (l : List Plan) :
    ∀ acc : List Plan, acc.Pairwise (fun a b => b.created ≤ a.created) →
      (l.foldl (fun acc p => insertPlan p acc) acc).Pairwise (fun a b => b.created ≤ a.created) := by
  induction l with
  | nil => intro acc h; exact h
  | cons p rest ih =>
    intro acc h
    rw [List.foldl_cons]
    exact ih _ (insertPlan_pairwise h)

/-- C4 (counterexample): two plans with equal `created` times are kept in
input order by `sortPlans`, whichever that order is, so ties are not
ordered by path. -/
theorem sortPlans_tie_not_by_path :
    sortPlans [tiePlanB, tiePlanA] = [tiePlanB, tiePlanA] ∧
    sortPlans [tiePlanA, tiePlanB] = [tiePlanA, tiePlanB] ∧
    tiePlanA.created = tiePlanB.created ∧
    tiePlanA.path ≠ tiePlanB.path := by
  refine ⟨by decide, by decide, by decide, by decide⟩

/-- C4 (amended): `sortPlans` produces a permutation of its input that is
descending (non-increasing) by `created`; plans with equal `created` times
are not ordered by path. -/
theorem sortPlans_sorted_created_desc (plans : List Plan) :
    List.Perm (sortPlans plans) plans ∧
    (sortPlans plans).Pairwise (fun a b => b.created ≤ a.created) := by
  constructor
  · have := foldl_insertPlan_perm plans []
    simpa [sortPlans] using this
  · exact foldl_insertPlan_pairwise plans [] (by simp)

/-! ## C10 — comment mutation primitives are total -/

/-- C10: `injectComment`, `removeComment` and `replaceComment` return the
body unchanged when the line index is negative or not less than the number
of lines. -/
theorem comment_ops_total (body : Str) (idx : Int) (text newText : Str)
    (h : idx < 0 ∨ ((splitOnChar '\n' body).length : Int) ≤ idx) :
    injectComment body idx text = body ∧
    removeComment body idx = body ∧
    replaceComment body idx newText = body := by
  refine ⟨?_, ?_, ?_⟩
  · unfold injectComment; rw [if_pos h]
  · unfold removeComment; rw [if_pos h]
  · unfold replaceComment; rw [if_pos h]

/-- C10 (witness): a two-line body with index 5. -/
theorem comment_ops_total_witness :
    injectComment ("a\nb".data) 5 ("t".data) = "a\nb".data ∧
    removeComment ("a\nb".data) 5 = "a\nb".data ∧
    replaceComment ("a\nb".data) 5 ("u".data) = "a\nb".data :=
  comment_ops_total ("a\nb".data) 5 ("t".data) ("u".data) (by decide)

/-! ## C1 — scenario S1, frontmatter write -/

/-- C1: writing `{status: active}` into a file with no frontmatter produces
exactly an opening fence, the status line, a closing fence, and the
untouched body. -/
theorem s1_frontmatter_write :
    setFrontmatterContent ("# Plan A\n\nBody\n".data) [("status".data, "active".data)]
      = ("---\nstatus: active\n---\n# Plan A\n\nBody\n").data := by
  decide

/-! ## C5 — scenario S2, migration on read -/

/-- C5: reading `status: pending, project: foo` yields status `reviewed`,
labels `["foo"]`, the legacy `project` retained and title `P`, for any stat
times; and in general the status migration fires exactly on the legacy
`pending` token, the label migration whenever the parsed label list is
empty and `project` is set.  `scanPlanContent` is a pure function of the
file content: reading writes nothing. -/
theorem scanPlans_migration :
    (∀ created modified : Int,
      (scanPlanContent ("d".data) ("x.md".data)
          ("---\nstatus: pending\nproject: foo\n---\n# P\n".data) created modified).status
          = "reviewed".data ∧
      (scanPlanContent ("d".data) ("x.md".data)
          ("---\nstatus: pending\nproject: foo\n---\n# P\n".data) created modified).labels
          = ["foo".data] ∧
      (scanPlanContent ("d".data) ("x.md".data)
          ("---\nstatus: pending\nproject: foo\n---\n# P\n".data) created modified).project
          = "foo".data ∧
      (scanPlanContent ("d".data) ("x.md".data)
          ("---\nstatus: pending\nproject: foo\n---\n# P\n".data) created modified).title
          = "P".data) ∧
    (∀ (dir name content : Str) (created modified : Int),
      ((lookupF (parseFrontmatter content).1 ("status".data)).getD [] = "pending".data →
        (scanPlanContent dir name content created modified).status = "reviewed".data) ∧
      (parseLabels ((lookupF (parseFrontmatter content).1 ("labels".data)).getD []) = [] →
        (lookupF (parseFrontmatter content).1 ("project".data)).getD [] ≠ [] →
        (scanPlanContent dir name content created modified).labels
          = [(lookupF (parseFrontmatter content).1 ("project".data)).getD []])) := by
  constructor
  · intro created modified
    exact ⟨rfl, rfl, rfl, rfl⟩
  · intro dir name content created modified
    constructor
    · intro h
      simp only [scanPlanContent]
      rw [if_pos h]
    · intro h1 h2
      simp only [scanPlanContent]
      rw [if_pos ⟨h1, h2⟩]

/-- C5 (witness): the general migration laws applied at the S2 content. -/
theorem scanPlans_migration_witness :
    (scanPlanContent ("d".data) ("x.md".data)
        ("---\nstatus: pending\nproject: foo\n---\n# P\n".data) 3 4).status = "reviewed".data ∧
    (scanPlanContent ("d".data) ("x.md".data)
        ("---\nstatus: pending\nproject: foo\n---\n# P\n".data) 3 4).labels
      = [(lookupF (parseFrontmatter
            ("---\nstatus: pending\nproject: foo\n---\n# P\n".data)).1
            ("project".data)).getD []] :=
  ⟨(scanPlans_migration.2 ("d".data) ("x.md".data)
      ("---\nstatus: pending\nproject: foo\n---\n# P\n".data) 3 4).1 (by decide),
   (scanPlans_migration.2 ("d".data) ("x.md".data)
      ("---\nstatus: pending\nproject: foo\n---\n# P\n".data) 3 4).2 (by decide) (by decide)⟩

/-! ## C6 — filterPlans -/

lemma hasLabel_iff_mem (ls : List Str) (t : Str) : hasLabel ls t = true ↔ t ∈ ls := by
  induction ls with
  | nil => simp [hasLabel]
  | cons l rest ih =>
    unfold hasLabel
    by_cases h : l = t
    · subst h; simp
    · rw [if_neg h, ih]
      constructor
      · exact fun hm => List.mem_cons_of_mem l hm
      · intro hm
        rcases List.mem_cons.mp hm with rfl | hm2
        · exact absurd rfl h
        · exact hm2

/-- C6: `filterPlans` retains, in order, exactly the plans satisfying the
specification's retention condition. -/
theorem filterPlans_eq_spec (plans : List Plan) (showDone : Bool) (keepFiles : List Str)
    (labelFilter : Str) (installed : Int) :
    filterPlans plans showDone keepFiles labelFilter installed
      = plans.filter
          (fun p => decide (filterSpecKeeps showDone keepFiles labelFilter installed p)) := by
  induction plans with
  | nil => rfl
  | cons p rest ih =>
    rw [List.filter_cons]
    simp only [filterPlans]
    rw [ih]
    by_cases h1 : labelFilter ≠ [] ∧ hasLabel p.labels labelFilter = false
    · rw [if_pos h1, if_neg ?hc]
      case hc =>
        rw [decide_eq_true_iff]
        intro hs
        have := hs.1 h1.1
        rw [← hasLabel_iff_mem] at this
        rw [h1.2] at this
        exact absurd this (by simp)
    · rw [if_neg h1]
      by_cases h2 : showDone = false ∧ p.status = "done".data ∧ ¬ p.path ∈ keepFiles
      · rw [if_pos h2, if_neg ?hc2]
        case hc2 =>
          rw [decide_eq_true_iff]
          intro hs
          exact h2.2.2 (hs.2.1 h2.1 h2.2.1)
      · rw [if_neg h2]
        by_cases h3 : showDone = false ∧ p.status = [] ∧ ¬ p.path ∈ keepFiles
            ∧ (installed = 0 ∨ p.modified < installed)
        · rw [if_pos h3, if_neg ?hc3]
          case hc3 =>
            rw [decide_eq_true_iff]
            intro hs
            have := hs.2.2 h3.1 h3.2.1 h3.2.2.1
            rcases h3.2.2.2 with h0 | hlt
            · exact this.1 h0
            · exact this.2 hlt
        · rw [if_neg h3]
          have hk : decide (filterSpecKeeps showDone keepFiles labelFilter installed p) = true := by
            rw [decide_eq_true_iff]
            push_neg at h1 h2 h3
            refine ⟨?_, h2, fun hsd hst hkp => ?_⟩
            · intro hlf
              have hne := h1 hlf
              rw [← hasLabel_iff_mem]
              cases hh : hasLabel p.labels labelFilter
              · exact absurd hh hne
              · rfl
            · have h4 := h3 hsd hst hkp
              exact ⟨h4.1, by omega⟩
          rw [if_pos hk]

/-! ## C7 — render-line mapping is monotone -/

lemma findFrom_ge {stripped words : List Str} {sf j : Nat}
    (h : findFrom stripped words sf = some j) : sf ≤ j := by
  unfold findFrom at h
  rcases Option.map_eq_some'.mp h with ⟨i, _, hji⟩
  omega

lemma crlGo_eq_zip (stripped : List Str) (sf : Nat) (toc : List TocEntry) :
    crlGo stripped sf toc
      = List.zipWith
          (fun e m => match m with | none => e | some j => { e with renderLine := j })
          toc (crlMatches stripped sf toc) := by
  induction toc generalizing sf with
  | nil => rfl
  | cons e rest ih =>
    unfold crlGo crlMatches
    by_cases h1 : trimSpace e.text = []
    · rw [if_pos h1, if_pos h1]
      simp [ih sf]
    · rw [if_neg h1, if_neg h1]
      by_cases h2 : headingWords (trimSpace e.text) = []
      · rw [if_pos h2, if_pos h2]
        simp [ih sf]
      · rw [if_neg h2, if_neg h2]
        cases hf : findFrom stripped (headingWords (trimSpace e.text)) sf with
        | none => simp [ih sf]
        | some j => simp [ih (j + 1)]

lemma crlMatches_ge (stripped : List Str) (sf : Nat) (toc : List TocEntry) :
    ∀ m ∈ crlMatches stripped sf toc, ∀ j, m = some j → sf ≤ j := by
  induction toc generalizing sf with
  | nil => intro m hm; simp [crlMatches] at hm
  | cons e rest ih =>
    intro m hm j hj
    unfold crlMatches at hm
    by_cases h1 : trimSpace e.text = []
    · rw [if_pos h1] at hm
      rcases List.mem_cons.mp hm with rfl | hm2
      · exact absurd hj (by simp)
      · exact ih sf m hm2 j hj
    · rw [if_neg h1] at hm
      by_cases h2 : headingWords (trimSpace e.text) = []
      · rw [if_pos h2] at hm
        rcases List.mem_cons.mp hm with rfl | hm2
        · exact absurd hj (by simp)
        · exact ih sf m hm2 j hj
      · rw [if_neg h2] at hm
        cases hf : findFrom stripped (headingWords (trimSpace e.text)) sf with
        | none =>
          rw [hf] at hm
          rcases List.mem_cons.mp hm with rfl | hm2
          · exact absurd hj (by simp)
          · exact ih sf m hm2 j hj
        | some j0 =>
          rw [hf] at hm
          rcases List.mem_cons.mp hm with rfl | hm2
          · obtain rfl : j0 = j := Option.some_injective _ hj
            exact findFrom_ge hf
          · have := ih (j0 + 1) m hm2 j hj
            have hge := findFrom_ge hf
            omega

lemma crlMatches_pairwise (stripped : List Str) (sf : Nat) (toc : List TocEntry) :
    (crlMatches stripped sf toc).Pairwise
      (fun a b => ∀ x y, a = some x → b = some y → x < y) := by
  induction toc generalizing sf with
  | nil => simp [crlMatches]
  | cons e rest ih =>
    unfold crlMatches
    by_cases h1 : trimSpace e.text = []
    · rw [if_pos h1]
      refine List.Pairwise.cons (fun b _ x y hx _ => absurd hx (by simp)) (ih sf)
    · rw [if_neg h1]
      by_cases h2 : headingWords (trimSpace e.text) = []
      · rw [if_pos h2]
        refine List.Pairwise.cons (fun b _ x y hx _ => absurd hx (by simp)) (ih sf)
      · rw [if_neg h2]
        cases hf : findFrom stripped (headingWords (trimSpace e.text)) sf with
        | none =>
          refine List.Pairwise.cons (fun b _ x y hx _ => absurd hx (by simp)) (ih sf)
        | some j =>
          refine List.Pairwise.cons ?_ (ih (j + 1))
          intro b hb x y hx hy
          obtain rfl : j = x := Option.some_injective _ hx
          have := crlMatches_ge stripped (j + 1) rest b hb y hy
          omega

lemma crl_unmatched_zero (stripped : List Str) (sf : Nat) (toc : List TocEntry)
    (h0 : ∀ e ∈ toc, e.renderLine = 0) :
    ∀ (i : Nat) (e : TocEntry), (crlGo stripped sf toc)[i]? = some e →
      (crlMatches stripped sf toc)[i]? = some none → e.renderLine = 0 := by
  induction toc generalizing sf with
  | nil => intro i e he _; simp [crlGo] at he
  | cons e0 rest ih =>
    intro i e he hm
    have h0head : e0.renderLine = 0 := h0 e0 (List.mem_cons_self e0 rest)
    have h0tail : ∀ x ∈ rest, x.renderLine = 0 :=
      fun x hx => h0 x (List.mem_cons_of_mem e0 hx)
    unfold crlGo at he
    unfold crlMatches at hm
    by_cases h1 : trimSpace e0.text = []
    · rw [if_pos h1] at he hm
      cases i with
      | zero =>
        simp only [List.getElem?_cons_zero, Option.some.injEq] at he
        rw [← he]; exact h0head
      | succ n =>
        simp only [List.getElem?_cons_succ] at he hm
        exact ih sf h0tail n e he hm
    · rw [if_neg h1] at he hm
      by_cases h2 : headingWords (trimSpace e0.text) = []
      · rw [if_pos h2] at he hm
        cases i with
        | zero =>
          simp only [List.getElem?_cons_zero, Option.some.injEq] at he
          rw [← he]; exact h0head
        | succ n =>
          simp only [List.getElem?_cons_succ] at he hm
          exact ih sf h0tail n e he hm
      · rw [if_neg h2] at he hm
        cases hf : findFrom stripped (headingWords (trimSpace e0.text)) sf with
        | none =>
          rw [hf] at he hm
          cases i with
          | zero =>
            simp only [List.getElem?_cons_zero, Option.some.injEq] at he
            rw [← he]; exact h0head
          | succ n =>
            simp only [List.getElem?_cons_succ] at he hm
            exact ih sf h0tail n e he hm
        | some j =>
          rw [hf] at he hm
          cases i with
          | zero =>
            simp only [List.getElem?_cons_zero, Option.some.injEq] at hm
            exact absurd hm (by simp)
          | succ n =>
            simp only [List.getElem?_cons_succ] at he hm
            exact ih (j + 1) h0tail n e he hm

/-- C7: over a ToC whose entries all start with `renderLine = 0` (as
`extractToc` produces them), `computeRenderLines` assigns matched entries
strictly increasing (hence non-decreasing) render lines in source order,
leaves every unmatched or skipped entry (empty text, empty token list, no
matching rendered line) unchanged, and those entries keep `renderLine = 0`. -/
theorem computeRenderLines_monotone (strip : Str → Str) (toc : List TocEntry) (rendered : Str)
    (h0 : ∀ e ∈ toc, e.renderLine = 0) :
    computeRenderLines strip toc rendered
        = List.zipWith
            (fun e m => match m with | none => e | some j => { e with renderLine := j })
            toc (crlMatches ((splitOnChar '\n' rendered).map strip) 0 toc) ∧
    (crlMatches ((splitOnChar '\n' rendered).map strip) 0 toc).Pairwise
        (fun a b => ∀ x y, a = some x → b = some y → x < y) ∧
    ∀ (i : Nat) (e : TocEntry),
      (computeRenderLines strip toc rendered)[i]? = some e →
      (crlMatches ((splitOnChar '\n' rendered).map strip) 0 toc)[i]? = some none →
      e.renderLine = 0 := by
  have hcrl : computeRenderLines strip toc rendered
      = crlGo ((splitOnChar '\n' rendered).map strip) 0 toc := by
    unfold computeRenderLines
    by_cases h : toc = []
    · rw [if_pos h]; subst h; rfl
    · rw [if_neg h]
  refine ⟨?_, crlMatches_pairwise _ 0 toc, ?_⟩
  · rw [hcrl]; exact crlGo_eq_zip _ 0 toc
  · rw [hcrl]; exact crl_unmatched_zero _ 0 toc h0

/-- C7 (witness): a one-entry ToC over a one-line rendering. -/
theorem computeRenderLines_monotone_witness :
    (crlMatches ((splitOnChar '\n' ("A".data)).map id) 0
        [⟨1, "A".data, 0, 0, false⟩]).Pairwise
      (fun a b => ∀ x y, a = some x → b = some y → x < y) :=
  (computeRenderLines_monotone id [⟨1, "A".data, 0, 0, false⟩] ("A".data) (by decide)).2.1

/-! ## Splitting and joining lines -/

lemma splitOnChar_ne_nil (sep : Char) (s : Str) : splitOnChar sep s ≠ [] := by
  cases s with
  | nil => simp [splitOnChar]
  | cons c rest =>
    unfold splitOnChar
    by_cases h : c = sep
    · rw [if_pos h]; simp
    · rw [if_neg h]
      cases hs : splitOnChar sep rest <;> simp

lemma joinWith_cons (sep : Char) (l : Str) {ls : List Str} (h : ls ≠ []) :
    joinWith sep (l :: ls) = l ++ sep :: joinWith sep ls := by
  cases ls with
  | nil => exact absurd rfl h
  | cons m ms => rfl

lemma join_split (sep : Char) (s : Str) : joinWith sep (splitOnChar sep s) = s := by
  induction s with
  | nil => rfl
  | cons c rest ih =>
    unfold splitOnChar
    by_cases h : c = sep
    · rw [if_pos h, joinWith_cons sep [] (splitOnChar_ne_nil sep rest), ih, h]
      rfl
    · rw [if_neg h]
      cases hs : splitOnChar sep rest with
      | nil => exact absurd hs (splitOnChar_ne_nil sep rest)
      | cons m ms =>
        rw [hs] at ih
        cases ms with
        | nil =>
          simp only [joinWith] at ih ⊢
          rw [ih]
        | cons m2 ms2 =>
          rw [joinWith_cons sep (c :: m) (by simp)]
          rw [joinWith_cons sep m (by simp)] at ih
          simp only [List.cons_append]
          rw [ih]

lemma not_mem_splitOnChar (sep : Char) (s : Str) :
    ∀ l ∈ splitOnChar sep s, sep ∉ l := by
  induction s with
  | nil =>
    intro l hl
    simp only [splitOnChar, List.mem_singleton] at hl
    simp [hl]
  | cons c rest ih =>
    intro l hl
    unfold splitOnChar at hl
    by_cases h : c = sep
    · rw [if_pos h] at hl
      rcases List.mem_cons.mp hl with rfl | hl2
      · simp
      · exact ih l hl2
    · rw [if_neg h] at hl
      cases hs : splitOnChar sep rest with
      | nil => exact absurd hs (splitOnChar_ne_nil sep rest)
      | cons m ms =>
        rw [hs] at hl
        rcases List.mem_cons.mp hl with rfl | hl2
        · intro hmem
          rcases List.mem_cons.mp hmem with hc | hm
          · exact h hc.symm
          · exact ih m (hs ▸ List.mem_cons_self m ms) hm
        · exact ih l (hs ▸ List.mem_cons_of_mem m hl2)

lemma splitOnChar_no_sep {sep : Char} {l : Str} (h : sep ∉ l) :
    splitOnChar sep l = [l] := by
  induction l with
  | nil => rfl
  | cons c rest ih =>
    have hc : ¬ c = sep := fun he => h (by rw [← he]; exact List.mem_cons_self c rest)
    unfold splitOnChar
    rw [if_neg hc, ih (fun hm => h (List.mem_cons_of_mem c hm))]

lemma splitOnChar_cons (sep c : Char) (rest : Str) :
    splitOnChar sep (c :: rest)
      = if c = sep then [] :: splitOnChar sep rest
        else
          match splitOnChar sep rest with
          | [] => [[c]]
          | l :: ls => (c :: l) :: ls := rfl

lemma splitOnChar_append_cons (sep : Char) {l : Str} (rest : Str) (h : sep ∉ l) :
    splitOnChar sep (l ++ sep :: rest) = l :: splitOnChar sep rest := by
  induction l with
  | nil =>
    simp only [List.nil_append]
    rw [splitOnChar_cons, if_pos rfl]
  | cons c l2 ih =>
    have hc : ¬ c = sep := fun he => h (by rw [← he]; exact List.mem_cons_self c l2)
    simp only [List.cons_append]
    rw [splitOnChar_cons, if_neg hc, ih (fun hm => h (List.mem_cons_of_mem c hm))]

lemma split_join {sep : Char} {ls : List Str} (hne : ls ≠ [])
    (h : ∀ l ∈ ls, sep ∉ l) :
    splitOnChar sep (joinWith sep ls) = ls := by
  induction ls with
  | nil => exact absurd rfl hne
  | cons l ls2 ih =>
    cases ls2 with
    | nil => exact splitOnChar_no_sep (h l (List.mem_cons_self l []))
    | cons m ms =>
      rw [joinWith_cons sep l (by simp)]
      rw [splitOnChar_append_cons sep _ (h l (List.mem_cons_self l _))]
      rw [ih (by simp) (fun x hx => h x (List.mem_cons_of_mem l hx))]

/-! ## C8 — inject / remove round trip -/

lemma dropLeadingBlank_cons (y : Str) (ys : List Str) :
    dropLeadingBlank (y :: ys) = if isBlank y = true then ys else y :: ys := rfl

lemma dropLeadingBlank_subset (l : List Str) : ∀ x ∈ dropLeadingBlank l, x ∈ l := by
  intro x hx
  cases l with
  | nil => exact hx
  | cons y ys =>
    rw [dropLeadingBlank_cons] at hx
    by_cases hb : isBlank y = true
    · rw [if_pos hb] at hx
      exact List.mem_cons_of_mem y hx
    · rw [if_neg hb] at hx
      exact hx

lemma dropLeadingBlank_blank_cons {x : Str} {xs : List Str} (hx : isBlank x = true) :
    dropLeadingBlank (x :: xs) = xs := by
  rw [dropLeadingBlank_cons, if_pos hx]

lemma dropLeadingBlank_not_blank {x : Str} {xs : List Str} (hx : isBlank x = false) :
    dropLeadingBlank (x :: xs) = x :: xs := by
  rw [dropLeadingBlank_cons, if_neg (by simp [hx])]

/-- After `injectComment` puts the comment at line `h + 2`, `removeComment`
at that line deletes the comment and its two surrounding blanks. -/
lemma remove_after_inject (A : List Str) (cm : Str) (rest2 : List Str) (h : Nat)
    (hAlen : A.length = h + 1)
    (hmem : ∀ l ∈ A ++ [] :: cm :: [] :: rest2, '\n' ∉ l) :
    removeComment (joinWith '\n' (A ++ [] :: cm :: [] :: rest2)) ((h : Int) + 2)
      = joinWith '\n' (A ++ rest2) := by
  have hsplit : splitOnChar '\n' (joinWith '\n' (A ++ [] :: cm :: [] :: rest2))
      = A ++ [] :: cm :: [] :: rest2 := split_join (by simp) hmem
  have hlen : (A ++ [] :: cm :: [] :: rest2).length = h + 4 + rest2.length := by
    simp only [List.length_append, List.length_cons, hAlen]
    omega
  simp only [removeComment]
  rw [hsplit]
  rw [if_neg (by omega)]
  have htn2 : ((h : Int) + 2).toNat = h + 2 := by omega
  rw [htn2]
  have hfront : (A ++ [] :: cm :: [] :: rest2).take (h + 2) = A ++ [[]] := by
    have h2 : h + 2 = A.length + 1 := by omega
    rw [h2, List.take_append]
    rfl
  have hdrop3 : (A ++ [] :: cm :: [] :: rest2).drop (h + 2 + 1) = [] :: rest2 := by
    have h3 : h + 2 + 1 = A.length + 2 := by omega
    rw [h3, List.drop_append]
    rfl
  rw [hfront, hdrop3]
  rw [dropLeadingBlank_blank_cons (by decide : isBlank ([] : Str) = true)]
  simp only [List.getLast?_concat]
  rw [if_pos (by decide : isBlank ([] : Str) = true)]
  rw [List.dropLast_concat]

/-- C8: injecting a comment after a valid heading line and removing it at
the line where it was placed restores the body exactly, or restores it up
to the removal of the single blank line that immediately followed the
heading (when there was one, the injection consumed it). -/
theorem inject_remove_roundtrip (body text : Str) (h : Nat)
    (hh : h < (splitOnChar '\n' body).length) (ht : '\n' ∉ text) :
    removeComment (injectComment body (h : Int) text) ((h : Int) + 2) = body ∨
    ∃ pre b post, splitOnChar '\n' body = pre ++ b :: post ∧ pre.length = h + 1 ∧
      isBlank b = true ∧
      removeComment (injectComment body (h : Int) text) ((h : Int) + 2)
        = joinWith '\n' (pre ++ post) := by
  have hinj : injectComment body (h : Int) text
      = joinWith '\n' ((splitOnChar '\n' body).take (h + 1)
          ++ [] :: (commentMarker ++ text) :: [] ::
            dropLeadingBlank ((splitOnChar '\n' body).drop (h + 1))) := by
    simp only [injectComment]
    rw [if_neg (by omega)]
    have htn : (h : Int).toNat = h := by omega
    rw [htn]
    by_cases hlt : h + 1 < (splitOnChar '\n' body).length
    · rw [if_pos hlt]
      simp [List.append_assoc]
    · rw [if_neg hlt]
      have hdrop : (splitOnChar '\n' body).drop (h + 1) = [] :=
        List.drop_eq_nil_of_le (by omega)
      rw [hdrop]
      simp [dropLeadingBlank, List.append_assoc]
  have hAlen : ((splitOnChar '\n' body).take (h + 1)).length = h + 1 := by
    rw [List.length_take]; omega
  have hmemN : ∀ l ∈ (splitOnChar '\n' body).take (h + 1)
      ++ [] :: (commentMarker ++ text) :: [] ::
        dropLeadingBlank ((splitOnChar '\n' body).drop (h + 1)), '\n' ∉ l := by
    intro l hl
    rcases List.mem_append.mp hl with hl | hl
    · exact not_mem_splitOnChar _ _ l (List.take_subset _ _ hl)
    · rcases List.mem_cons.mp hl with rfl | hl
      · simp
      · rcases List.mem_cons.mp hl with rfl | hl
        · intro hmem
          rcases List.mem_append.mp hmem with hc | hc
          · revert hc; decide
          · exact ht hc
        · rcases List.mem_cons.mp hl with rfl | hl
          · simp
          · exact not_mem_splitOnChar _ _ l
              (List.drop_subset _ _ (dropLeadingBlank_subset _ l hl))
  have hrem := remove_after_inject ((splitOnChar '\n' body).take (h + 1))
      (commentMarker ++ text)
      (dropLeadingBlank ((splitOnChar '\n' body).drop (h + 1))) h hAlen hmemN
  rw [hinj, hrem]
  cases hd : (splitOnChar '\n' body).drop (h + 1) with
  | nil =>
    left
    have htake : (splitOnChar '\n' body).take (h + 1) = splitOnChar '\n' body :=
      List.take_of_length_le (by have := List.drop_eq_nil_iff.mp hd; omega)
    rw [show dropLeadingBlank [] = [] from rfl, List.append_nil, htake, join_split]
  | cons x xs =>
    by_cases hb : isBlank x = true
    · right
      refine ⟨(splitOnChar '\n' body).take (h + 1), x, xs, ?_, hAlen, hb, ?_⟩
      · have := List.take_append_drop (h + 1) (splitOnChar '\n' body)
        rw [hd] at this
        exact this.symm
      · rw [dropLeadingBlank_blank_cons hb]
    · left
      rw [dropLeadingBlank_not_blank (by simp at hb; simp [hb]), ← hd,
        List.take_append_drop, join_split]

/-- C8 (witness): heading at line 0 of a two-line body with a blank line
after the heading (the consumed-blank case). -/
theorem inject_remove_roundtrip_witness :
    removeComment (injectComment ("# T\nx".data) ((0 : Nat) : Int) ("hi".data))
        (((0 : Nat) : Int) + 2) = "# T\nx".data ∨
    ∃ pre b post, splitOnChar '\n' ("# T\nx".data) = pre ++ b :: post ∧
      pre.length = 0 + 1 ∧ isBlank b = true ∧
      removeComment (injectComment ("# T\nx".data) ((0 : Nat) : Int) ("hi".data))
          (((0 : Nat) : Int) + 2) = joinWith '\n' (pre ++ post) :=
  inject_remove_roundtrip ("# T\nx".data) ("hi".data) 0 (by decide) (by decide)

/-! ## C9 — self-write suppression -/

lemma wstep_inv {s s' : WatchState} {e : WatchEvent} (hs : WStep s e s')
    (h : s.lastSelfWrite ≤ s.now) : s'.lastSelfWrite ≤ s'.now := by
  cases hs with
  | tick d => dsimp only; omega
  | selfWrite => dsimp only; omega
  | mdEvent => exact h
  | emitBatch hg => exact h
  | dropBatch hg => exact h

lemma wstep_lsw_mono {s s' : WatchState} {e : WatchEvent} (hs : WStep s e s')
    (h : s.lastSelfWrite ≤ s.now) : s.lastSelfWrite ≤ s'.lastSelfWrite := by
  cases hs with
  | tick d => exact le_refl _
  | selfWrite => exact h
  | mdEvent => exact le_refl _
  | emitBatch hg => exact le_refl _
  | dropBatch hg => exact le_refl _

/-- Along any run from a state whose stored timestamp is not in the future,
the stored timestamp is monotone and never in the future. -/
lemma wrun_states {s : WatchState} {tr : List (WatchEvent × WatchState)}
    (hrun : WRun s tr) (hinv : s.lastSelfWrite ≤ s.now) :
    ∀ p ∈ tr, s.lastSelfWrite ≤ p.2.lastSelfWrite ∧ p.2.lastSelfWrite ≤ p.2.now := by
  induction hrun with
  | nil => intro p hp; simp at hp
  | cons hstep hrest ih =>
    intro p hp
    have hinv2 := wstep_inv hstep hinv
    have hmono := wstep_lsw_mono hstep hinv
    rcases List.mem_cons.mp hp with rfl | hp2
    · exact ⟨hmono, hinv2⟩
    · have := ih hinv2 p hp2
      exact ⟨le_trans hmono this.1, this.2⟩

/-- Every emitted batch in a run was emitted at least 500 ms after the
stored timestamp at emission time. -/
lemma wrun_emit_guard {s : WatchState} {tr : List (WatchEvent × WatchState)}
    (hrun : WRun s tr) :
    ∀ p ∈ tr, p.1 = WatchEvent.emitBatch → p.2.lastSelfWrite + 500 ≤ p.2.now := by
  induction hrun with
  | nil => intro p hp; simp at hp
  | cons hstep hrest ih =>
    intro p hp he
    rcases List.mem_cons.mp hp with rfl | hp2
    · cases hstep with
      | tick d => exact absurd he (by simp)
      | selfWrite => exact absurd he (by simp)
      | mdEvent => exact absurd he (by simp)
      | emitBatch hg => dsimp only; omega
      | dropBatch hg => exact absurd he (by simp)
    · exact ih p hp2 he

lemma wrun_drop {s : WatchState} {tr : List (WatchEvent × WatchState)}
    (hrun : WRun s tr) (i : Nat) {e : WatchEvent} {si : WatchState}
    (hi : tr[i]? = some (e, si)) : WRun si (tr.drop (i + 1)) := by
  induction hrun generalizing i with
  | nil => simp at hi
  | cons hstep hrest ih =>
    cases i with
    | zero =>
      simp only [List.getElem?_cons_zero, Option.some.injEq, Prod.mk.injEq] at hi
      rw [List.drop_succ_cons, List.drop_zero]
      rw [← hi.2]
      exact hrest
    | succ n =>
      simp only [List.getElem?_cons_succ] at hi
      rw [List.drop_succ_cons]
      exact ih n hi

/-- C9: in every run of the watcher/store system starting from a state
whose stored `lastSelfWrite` is not in the future (the initial state has
both fields 0), a batch emission observed at step `j` happens at least
500 ms after the timestamp stored by any earlier core write at step `i`:
the watcher never emits within the 500 ms window after a self-write, and a
batch drained inside the window is dropped (the `dropBatch` step is the
only one enabled there). -/
theorem selfWrite_suppression {s0 : WatchState} {tr : List (WatchEvent × WatchState)}
    (hrun : WRun s0 tr) (hinv : s0.lastSelfWrite ≤ s0.now)
    (i j : Nat) (hij : i < j) (si sj : WatchState)
    (hi : tr[i]? = some (WatchEvent.selfWrite, si))
    (hj : tr[j]? = some (WatchEvent.emitBatch, sj)) :
    si.lastSelfWrite + 500 ≤ sj.now := by
  have hsi := wrun_states hrun hinv (WatchEvent.selfWrite, si) (List.getElem?_mem hi)
  have hsuffix : WRun si (tr.drop (i + 1)) := wrun_drop hrun i hi
  have hjdrop : (tr.drop (i + 1))[j - i - 1]? = some (WatchEvent.emitBatch, sj) := by
    rw [List.getElem?_drop]
    rw [show i + 1 + (j - i - 1) = j by omega]
    exact hj
  have hjmem := List.getElem?_mem hjdrop
  have hmono := wrun_states hsuffix hsi.2 (WatchEvent.emitBatch, sj) hjmem
  have hguard := wrun_emit_guard hsuffix (WatchEvent.emitBatch, sj) hjmem rfl
  simp only [] at hmono hguard
  omega

/-- C9 (witness): a write at time 0 followed by a 600 ms pause and an
emission. -/
theorem selfWrite_suppression_witness :
    (⟨0, 0⟩ : WatchState).lastSelfWrite + 500 ≤ (⟨0 + (600 : Nat), 0⟩ : WatchState).now := by
  have hrun : WRun ⟨0, 0⟩
      [(WatchEvent.selfWrite, ⟨0, 0⟩),
       (WatchEvent.tick 600, ⟨0 + (600 : Nat), 0⟩),
       (WatchEvent.emitBatch, ⟨0 + (600 : Nat), 0⟩)] := by
    refine WRun.cons (WStep.selfWrite ⟨0, 0⟩) ?_
    refine WRun.cons (WStep.tick ⟨0, 0⟩ 600) ?_
    refine WRun.cons (WStep.emitBatch _ (by simp)) (WRun.nil _)
  exact selfWrite_suppression hrun (by simp) 0 2 (by omega) ⟨0, 0⟩ ⟨0 + (600 : Nat), 0⟩ rfl rfl

/-! ## C2 — association list and serialization lemmas -/

lemma lookupF_cons (k2 v2 key : Str) (rest : FieldMap) :
    lookupF ((k2, v2) :: rest) key = if k2 = key then some v2 else lookupF rest key := rfl

lemma lookupF_mem {l : FieldMap} {k v : Str} (h : lookupF l k = some v) : (k, v) ∈ l := by
  induction l with
  | nil => simp [lookupF] at h
  | cons p rest ih =>
    obtain ⟨k2, v2⟩ := p
    unfold lookupF at h
    by_cases he : k2 = k
    · rw [if_pos he] at h
      obtain rfl : v2 = v := Option.some_injective _ h
      subst he
      exact List.mem_cons_self _ _
    · rw [if_neg he] at h
      exact List.mem_cons_of_mem _ (ih h)

lemma lookupF_eq_some_of_mem {l : FieldMap} (hnd : (l.map Prod.fst).Nodup) {k v : Str}
    (h : (k, v) ∈ l) : lookupF l k = some v := by
  induction l with
  | nil => simp at h
  | cons p rest ih =>
    obtain ⟨k2, v2⟩ := p
    rw [List.map_cons, List.nodup_cons] at hnd
    rcases List.mem_cons.mp h with heq | hmem
    · cases heq
      rw [lookupF_cons, if_pos rfl]
    · have hk : ¬ k2 = k := by
        intro he
        subst he
        exact hnd.1 (List.mem_map.mpr ⟨(k2, v), hmem, rfl⟩)
      rw [lookupF_cons, if_neg hk]
      exact ih hnd.2 hmem

lemma lookupF_eq_of_mem_iff {l1 l2 : FieldMap} (h1 : (l1.map Prod.fst).Nodup)
    (h2 : (l2.map Prod.fst).Nodup) (hiff : ∀ p : Str × Str, p ∈ l1 ↔ p ∈ l2) (k : Str) :
    lookupF l1 k = lookupF l2 k := by
  cases hl : lookupF l1 k with
  | some v => exact (lookupF_eq_some_of_mem h2 ((hiff _).mp (lookupF_mem hl))).symm
  | none =>
    cases hl2 : lookupF l2 k with
    | none => rfl
    | some v =>
      have := lookupF_eq_some_of_mem h1 ((hiff _).mpr (lookupF_mem hl2))
      rw [hl] at this
      exact absurd this (by simp)

lemma lookupF_append_none {a b : FieldMap} {k : Str} (h : lookupF a k = none) :
    lookupF (a ++ b) k = lookupF b k := by
  induction a with
  | nil => rfl
  | cons p rest ih =>
    obtain ⟨k2, v2⟩ := p
    rw [lookupF_cons] at h
    by_cases he : k2 = k
    · rw [if_pos he] at h
      exact absurd h (by simp)
    · rw [if_neg he] at h
      rw [List.cons_append, lookupF_cons, if_neg he]
      exact ih h

lemma lookupF_none_of_not_mem_keys {l : FieldMap} {k : Str}
    (h : ¬ k ∈ l.map Prod.fst) : lookupF l k = none := by
  induction l with
  | nil => rfl
  | cons p rest ih =>
    obtain ⟨k2, v2⟩ := p
    have hk : ¬ k2 = k := by
      intro he
      apply h
      rw [List.map_cons, ← he]
      exact List.mem_cons_self _ _
    rw [lookupF_cons, if_neg hk]
    apply ih
    intro hm
    apply h
    rw [List.map_cons]
    exact List.mem_cons_of_mem _ hm

lemma insertF_fresh {m : FieldMap} {k v : Str} (h : lookupF m k = none) :
    insertF m k v = m ++ [(k, v)] := by
  unfold insertF
  rw [h]
  rfl

lemma replaceCRLF_no_cr {s : Str} (h : '\r' ∉ s) : replaceCRLF s = s := by
  induction s with
  | nil => rfl
  | cons c rest ih =>
    have hc : ¬ c = '\r' := fun he => h (by rw [← he]; exact List.mem_cons_self _ _)
    have ht := ih (fun hm => h (List.mem_cons_of_mem _ hm))
    cases rest with
    | nil => simp [replaceCRLF, hc]
    | cons d rest2 => simp [replaceCRLF, hc, ht]

lemma replaceCR_no_cr {s : Str} (h : '\r' ∉ s) : replaceCR s = s := by
  unfold replaceCR
  have hfix : ∀ c ∈ s, (if c = '\r' then '\n' else c) = c := by
    intro c hc
    rw [if_neg]
    intro he
    rw [he] at hc
    exact h hc
  rw [List.map_congr_left hfix]
  exact List.map_id s

lemma cutAt_append {k : Str} (rest : Str) (h : ':' ∉ k) :
    cutAt ':' (k ++ ':' :: rest) = some (k, rest) := by
  induction k with
  | nil => rfl
  | cons c k2 ih =>
    have hc : ¬ c = ':' := fun he => h (by rw [← he]; exact List.mem_cons_self _ _)
    simp only [List.cons_append]
    unfold cutAt
    rw [if_neg hc, ih (fun hm => h (List.mem_cons_of_mem _ hm))]
    rfl

lemma trimSpace_cons_space (v : Str) : trimSpace (' ' :: v) = trimSpace v := by
  unfold trimSpace
  rw [List.dropWhile_cons_of_pos (by decide : isSpace ' ' = true)]

lemma findIdx?_prefix_false {p : Str → Bool} {xs : List Str} (h : ∀ x ∈ xs, p x = false)
    {y : Str} (hy : p y = true) (ys : List Str) :
    List.findIdx? p (xs ++ y :: ys) = some xs.length := by
  induction xs with
  | nil => simp [hy]
  | cons x xs2 ih =>
    have hx : p x = false := h x (List.mem_cons_self _ _)
    simp only [List.cons_append, List.findIdx?_cons, hx, Bool.false_eq_true, if_false]
    rw [List.findIdx?_succ, ih (fun z hz => h z (List.mem_cons_of_mem _ hz))]
    simp

lemma split_flatten_lines (wp : List (Str × Str)) (tail : Str)
    (hwp : ∀ p ∈ wp, '\n' ∉ p.1 ∧ '\n' ∉ p.2) :
    splitOnChar '\n' ((wp.map (fun p => fmLine p.1 p.2)).flatten ++ tail)
      = wp.map (fun p => p.1 ++ ':' :: ' ' :: p.2) ++ splitOnChar '\n' tail := by
  induction wp with
  | nil => simp
  | cons p rest ih =>
    obtain ⟨k, v⟩ := p
    have hk : '\n' ∉ k := (hwp (k, v) (List.mem_cons_self _ _)).1
    have hv : '\n' ∉ v := (hwp (k, v) (List.mem_cons_self _ _)).2
    have hline : '\n' ∉ k ++ ':' :: ' ' :: v := by
      intro hm
      rcases List.mem_append.mp hm with hm | hm
      · exact hk hm
      · rcases List.mem_cons.mp hm with hm | hm
        · exact absurd hm (by decide)
        · rcases List.mem_cons.mp hm with hm | hm
          · exact absurd hm (by decide)
          · exact hv hm
    have hshape : fmLine k v ++ ((rest.map (fun p => fmLine p.1 p.2)).flatten ++ tail)
        = (k ++ ':' :: ' ' :: v) ++ '\n' ::
            ((rest.map (fun p => fmLine p.1 p.2)).flatten ++ tail) := by
      unfold fmLine
      simp [List.append_assoc]
    simp only [List.map_cons, List.flatten_cons, List.append_assoc]
    rw [← List.append_assoc (fmLine k v)]
    rw [List.append_assoc (fmLine k v)]
    rw [hshape, splitOnChar_append_cons '\n' _ hline]
    rw [ih (fun q hq => hwp q (List.mem_cons_of_mem _ hq))]
    simp

lemma filterMap_fst_sublist (f : Str → Option (Str × Str))
    (hf : ∀ a p, f a = some p → p.1 = a) (l : List Str) :
    ((l.filterMap f).map Prod.fst).Sublist l := by
  induction l with
  | nil => simp
  | cons a rest ih =>
    cases hfa : f a with
    | none =>
      rw [List.filterMap_cons_none hfa]
      exact ih.cons a
    | some p =>
      rw [List.filterMap_cons_some hfa, List.map_cons, hf a p hfa]
      exact ih.cons₂ a

lemma recognizedPairs_mem {fields : FieldMap} {k v : Str} :
    (k, v) ∈ recognizedPairs fields ↔
      k ∈ recognizedKeys ∧ lookupF fields k = some v ∧ v ≠ [] := by
  unfold recognizedPairs
  rw [List.mem_filterMap]
  constructor
  · rintro ⟨a, ha, hfa⟩
    cases hl : lookupF fields a with
    | none =>
      simp only [hl] at hfa
      exact absurd hfa (by simp)
    | some v2 =>
      simp only [hl] at hfa
      by_cases hv : v2 ≠ []
      · rw [if_pos hv] at hfa
        have heq := Option.some_injective _ hfa
        obtain ⟨rfl, rfl⟩ : a = k ∧ v2 = v :=
          ⟨congrArg Prod.fst heq, congrArg Prod.snd heq⟩
        exact ⟨ha, hl, hv⟩
      · rw [if_neg hv] at hfa
        simp at hfa
  · rintro ⟨hk, hl, hv⟩
    refine ⟨k, hk, ?_⟩
    simp only [hl]
    rw [if_pos hv]

lemma recognizedPairs_fst_sublist (fields : FieldMap) :
    ((recognizedPairs fields).map Prod.fst).Sublist recognizedKeys := by
  apply filterMap_fst_sublist
  intro a p hp
  cases hl : lookupF fields a with
  | none =>
    simp only [hl] at hp
    exact absurd hp (by simp)
  | some v2 =>
    simp only [hl] at hp
    by_cases hv : v2 ≠ []
    · rw [if_pos hv] at hp
      exact (congrArg Prod.fst (Option.some_injective _ hp)).symm
    · rw [if_neg hv] at hp
      simp at hp

lemma extraPairs_mem {fields : FieldMap} {k v : Str} :
    (k, v) ∈ extraPairs fields ↔
      (k ∈ fields.map Prod.fst ∧ ¬ k ∈ (recognizedPairs fields).map Prod.fst) ∧
        lookupF fields k = some v ∧ v ≠ [] := by
  simp only [extraPairs]
  rw [List.mem_filterMap]
  constructor
  · rintro ⟨a, ha, hfa⟩
    cases hl : lookupF fields a with
    | none =>
      simp only [hl] at hfa
      exact absurd hfa (by simp)
    | some v2 =>
      simp only [hl] at hfa
      by_cases hv : v2 ≠ []
      · rw [if_pos hv] at hfa
        have heq := Option.some_injective _ hfa
        obtain ⟨rfl, rfl⟩ : a = k ∧ v2 = v :=
          ⟨congrArg Prod.fst heq, congrArg Prod.snd heq⟩
        have ha2 := (sortStrs_perm _).mem_iff.mp ha
        rw [List.mem_filter] at ha2
        exact ⟨⟨ha2.1, of_decide_eq_true ha2.2⟩, hl, hv⟩
      · rw [if_neg hv] at hfa
        simp at hfa
  · rintro ⟨⟨hmem, hnw⟩, hl, hv⟩
    refine ⟨k, ?_, ?_⟩
    · apply (sortStrs_perm _).mem_iff.mpr
      rw [List.mem_filter]
      exact ⟨hmem, decide_eq_true hnw⟩
    · simp only [hl]
      rw [if_pos hv]

lemma extraPairs_fst_sublist (fields : FieldMap) :
    ((extraPairs fields).map Prod.fst).Sublist
      (sortStrs ((fields.map Prod.fst).filter
        (fun k => decide (¬ k ∈ (recognizedPairs fields).map Prod.fst)))) := by
  apply filterMap_fst_sublist
  intro a p hp
  cases hl : lookupF fields a with
  | none =>
    simp only [hl] at hp
    exact absurd hp (by simp)
  | some v2 =>
    simp only [hl] at hp
    by_cases hv : v2 ≠ []
    · rw [if_pos hv] at hp
      exact (congrArg Prod.fst (Option.some_injective _ hp)).symm
    · rw [if_neg hv] at hp
      simp at hp

lemma writtenPairs_key_nodup (fields : FieldMap) (hkeys : (fields.map Prod.fst).Nodup) :
    (((recognizedPairs fields) ++ extraPairs fields).map Prod.fst).Nodup := by
  rw [List.map_append, List.nodup_append]
  refine ⟨(recognizedPairs_fst_sublist fields).nodup (by decide), ?_, ?_⟩
  · exact (extraPairs_fst_sublist fields).nodup
      (((sortStrs_perm _).nodup_iff).mpr (hkeys.filter _))
  · intro x hx1 hx2
    have hx2b := (extraPairs_fst_sublist fields).subset hx2
    have hx2c := (sortStrs_perm _).mem_iff.mp hx2b
    rw [List.mem_filter] at hx2c
    exact (of_decide_eq_true hx2c.2) hx1

lemma writtenPairs_mem {fields : FieldMap} (hkeys : (fields.map Prod.fst).Nodup)
    (k v : Str) :
    (k, v) ∈ recognizedPairs fields ++ extraPairs fields ↔ (k, v) ∈ fields ∧ v ≠ [] := by
  rw [List.mem_append, recognizedPairs_mem, extraPairs_mem]
  constructor
  · rintro (⟨_, hl, hv⟩ | ⟨_, hl, hv⟩) <;> exact ⟨lookupF_mem hl, hv⟩
  · rintro ⟨hmem, hv⟩
    have hl := lookupF_eq_some_of_mem hkeys hmem
    by_cases hrec : k ∈ recognizedKeys
    · exact Or.inl ⟨hrec, hl, hv⟩
    · refine Or.inr ⟨⟨List.mem_map.mpr ⟨(k, v), hmem, rfl⟩, ?_⟩, hl, hv⟩
      intro hw
      exact hrec ((recognizedPairs_fst_sublist fields).subset hw)

lemma parse_lines_foldl (wp : List (Str × Str)) (acc : FieldMap)
    (hgood : ∀ p ∈ wp,
      trimSpace p.1 = p.1 ∧ ':' ∉ p.1 ∧ trimSpace p.2 = p.2 ∧ p.1 ≠ [] ∧ p.2 ≠ [])
    (hfresh : ∀ p ∈ wp, lookupF acc p.1 = none)
    (hnd : (wp.map Prod.fst).Nodup) :
    (wp.map (fun p => p.1 ++ ':' :: ' ' :: p.2)).foldl (fun fs line =>
      match cutAt ':' line with
      | none => fs
      | some kv =>
        let k := trimSpace kv.1
        let v := trimSpace kv.2
        if k ≠ [] ∧ v ≠ [] then insertF fs k v else fs) acc = acc ++ wp := by
  induction wp generalizing acc with
  | nil => simp
  | cons p rest ih =>
    obtain ⟨k, v⟩ := p
    obtain ⟨htk, hck, htv, hkne, hvne⟩ := hgood (k, v) (List.mem_cons_self _ _)
    rw [List.map_cons, List.foldl_cons]
    have hcut : cutAt ':' (k ++ ':' :: ' ' :: v) = some (k, ' ' :: v) := cutAt_append _ hck
    have hfk := hfresh (k, v) (List.mem_cons_self _ _)
    have hstep : (match cutAt ':' (k ++ ':' :: ' ' :: v) with
        | none => acc
        | some kv =>
          let k2 := trimSpace kv.1
          let v2 := trimSpace kv.2
          if k2 ≠ [] ∧ v2 ≠ [] then insertF acc k2 v2 else acc) = acc ++ [(k, v)] := by
      simp only [hcut]
      rw [trimSpace_cons_space, htk, htv]
      rw [if_pos ⟨hkne, hvne⟩]
      exact insertF_fresh hfk
    rw [hstep]
    rw [List.map_cons, List.nodup_cons] at hnd
    rw [ih (acc ++ [(k, v)])
      (fun q hq => hgood q (List.mem_cons_of_mem _ hq))
      ?hfr hnd.2]
    · rw [List.append_assoc]
      rfl
    case hfr =>
      intro q hq
      have hq1 : ¬ k = q.1 := by
        intro he
        exact hnd.1 (he ▸ List.mem_map.mpr ⟨q, hq, rfl⟩)
      rw [lookupF_append_none (hfresh q (List.mem_cons_of_mem _ hq))]
      rw [lookupF_cons, if_neg hq1]
      rfl

lemma parseFrontmatter_eval (content : Str) (first : Str) (rest : List Str)
    (hnorm : replaceCR (replaceCRLF content) = content)
    (hsplit : splitOnChar '\n' content = first :: rest) :
    parseFrontmatter content =
      (if (first :: rest).length < 2 ∨ first ≠ fenceLine then ([], content)
       else
         match rest.findIdx? (fun l => decide (l = fenceLine)) with
         | none => ([], content)
         | some i =>
           ((rest.take i).foldl (fun fs line =>
             match cutAt ':' line with
             | none => fs
             | some kv =>
               let k := trimSpace kv.1
               let v := trimSpace kv.2
               if k ≠ [] ∧ v ≠ [] then insertF fs k v else fs) [],
            joinWith '\n' (rest.drop (i + 1)))) := by
  unfold parseFrontmatter
  rw [hnorm]
  dsimp only
  rw [hsplit]

/-- C2 (counterexample): serialization followed by parsing is not the
identity on field maps whose keys may contain a colon: the key `a:b` is cut
at its first colon on re-parse, so the claim fails as stated. -/
theorem parse_serialize_colon_key :
    lookupF (parseFrontmatter
        (serializeFrontmatter [("a:b".data, "c".data)] [])).1 ("a:b".data)
      ≠ lookupF (List.filter (fun p => decide (p.2 ≠ []))
          [("a:b".data, "c".data)]) ("a:b".data) ∧
    (parseFrontmatter (serializeFrontmatter [("a:b".data, "c".data)] [])).1
      = [("a".data, "b: c".data)] := by
  refine ⟨by decide, by decide⟩

/-- C2 (amended): for every non-empty field map with unique keys, where
each key is non-empty, whitespace-trimmed and free of colons, newlines and
carriage returns, each value is whitespace-trimmed and free of newlines and
carriage returns, and the body contains no carriage return, parsing the
serialization yields exactly the body and a field map that agrees, as a
key-value map, with the input minus its empty-valued entries. -/
theorem parse_serialize_roundtrip (fields : FieldMap) (body : Str)
    (hne : fields ≠ [])
    (hkeys : (fields.map Prod.fst).Nodup)
    (hgood : ∀ p ∈ fields,
      (p.1 ≠ [] ∧ trimSpace p.1 = p.1 ∧ ':' ∉ p.1 ∧ '\n' ∉ p.1 ∧ '\r' ∉ p.1) ∧
      (trimSpace p.2 = p.2 ∧ '\n' ∉ p.2 ∧ '\r' ∉ p.2))
    (hbody : '\r' ∉ body) :
    (parseFrontmatter (serializeFrontmatter fields body)).2 = body ∧
    ∀ k, lookupF (parseFrontmatter (serializeFrontmatter fields body)).1 k
        = lookupF (fields.filter (fun p => decide (p.2 ≠ []))) k := by
  have hwpmem : ∀ p ∈ recognizedPairs fields ++ extraPairs fields,
      p ∈ fields ∧ p.2 ≠ [] := by
    intro p hp
    obtain ⟨k, v⟩ := p
    exact (writtenPairs_mem hkeys k v).mp hp
  have hwpnl : ∀ p ∈ recognizedPairs fields ++ extraPairs fields,
      '\n' ∉ p.1 ∧ '\n' ∉ p.2 := by
    intro p hp
    have hg := hgood p (hwpmem p hp).1
    exact ⟨hg.1.2.2.2.1, hg.2.2.1⟩
  have hser : serializeFrontmatter fields body
      = "---\n".data
          ++ (((recognizedPairs fields ++ extraPairs fields).map
              (fun p => fmLine p.1 p.2)).flatten)
          ++ "---\n".data ++ body := by
    unfold serializeFrontmatter
    rw [if_pos hne]
  have hnocr : '\r' ∉ serializeFrontmatter fields body := by
    rw [hser]
    intro hm
    rcases List.mem_append.mp hm with hm | hm
    · rcases List.mem_append.mp hm with hm | hm
      · rcases List.mem_append.mp hm with hm | hm
        · exact absurd hm (by decide)
        · rw [List.mem_flatten] at hm
          obtain ⟨line, hline, hcr⟩ := hm
          rw [List.mem_map] at hline
          obtain ⟨p, hp, rfl⟩ := hline
          have hg := hgood p (hwpmem p hp).1
          unfold fmLine at hcr
          rcases List.mem_append.mp hcr with hc | hc
          · rcases List.mem_append.mp hc with hc | hc
            · exact hg.1.2.2.2.2 hc
            rcases List.mem_cons.mp hc with hc | hc
            · exact absurd hc (by decide)
            rcases List.mem_cons.mp hc with hc | hc
            · exact absurd hc (by decide)
            · exact hg.2.2.2 hc
          · exact absurd hc (by decide)
      · exact absurd hm (by decide)
    · exact hbody hm
  have hshape : serializeFrontmatter fields body
      = fenceLine ++ '\n' ::
          (((recognizedPairs fields ++ extraPairs fields).map
            (fun p => fmLine p.1 p.2)).flatten
            ++ (fenceLine ++ '\n' :: body)) := by
    rw [hser]
    simp only [List.append_assoc]
    rfl
  have hsplit : splitOnChar '\n' (serializeFrontmatter fields body)
      = fenceLine ::
          ((recognizedPairs fields ++ extraPairs fields).map
              (fun p => p.1 ++ ':' :: ' ' :: p.2)
            ++ fenceLine :: splitOnChar '\n' body) := by
    rw [hshape]
    rw [splitOnChar_append_cons '\n' _ (by decide)]
    rw [split_flatten_lines _ _ hwpnl]
    rw [splitOnChar_append_cons '\n' _ (by decide)]
  have hlines_ne_fence : ∀ x ∈ (recognizedPairs fields ++ extraPairs fields).map
      (fun p => p.1 ++ ':' :: ' ' :: p.2), (decide (x = fenceLine)) = false := by
    intro x hx
    rw [List.mem_map] at hx
    obtain ⟨p, hp, rfl⟩ := hx
    apply decide_eq_false
    intro he
    have hcolon : ':' ∈ p.1 ++ ':' :: ' ' :: p.2 :=
      List.mem_append.mpr (Or.inr (List.mem_cons_self _ _))
    rw [he] at hcolon
    exact absurd hcolon (by decide)
  have hparse : parseFrontmatter (serializeFrontmatter fields body)
      = (recognizedPairs fields ++ extraPairs fields, body) := by
    rw [parseFrontmatter_eval _ _ _
      (by rw [replaceCRLF_no_cr hnocr, replaceCR_no_cr hnocr]) hsplit]
    rw [if_neg ?hg]
    case hg =>
      push_neg
      refine ⟨?_, rfl⟩
      simp only [List.length_cons, List.length_append]
      omega
    rw [findIdx?_prefix_false hlines_ne_fence (by simp) _]
    dsimp only
    rw [List.take_left, List.drop_append 1]
    rw [parse_lines_foldl _ []
      (by
        intro q hq
        have hg := hgood q (hwpmem q hq).1
        exact ⟨hg.1.2.1, hg.1.2.2.1, hg.2.1, hg.1.1, (hwpmem q hq).2⟩)
      (fun q hq => rfl)
      (writtenPairs_key_nodup fields hkeys)]
    rw [List.drop_one, List.tail_cons, join_split]
    rfl
  refine ⟨by rw [hparse], ?_⟩
  intro k
  rw [hparse]
  apply lookupF_eq_of_mem_iff
  · exact writtenPairs_key_nodup fields hkeys
  · exact hkeys.sublist ((List.filter_sublist _).map Prod.fst)
  · intro p
    obtain ⟨k2, v2⟩ := p
    rw [writtenPairs_mem hkeys, List.mem_filter]
    constructor
    · rintro ⟨hm, hv⟩
      exact ⟨hm, decide_eq_true hv⟩
    · rintro ⟨hm, hv⟩
      exact ⟨hm, of_decide_eq_true hv⟩

/-- C2 (witness): the amended round trip at a concrete two-field map. -/
theorem parse_serialize_roundtrip_witness :
    (parseFrontmatter (serializeFrontmatter
        [("status".data, "active".data), ("zebra".data, "x".data)] ("B".data))).2
      = "B".data ∧
    lookupF (parseFrontmatter (serializeFrontmatter
        [("status".data, "active".data), ("zebra".data, "x".data)] ("B".data))).1
        ("zebra".data)
      = lookupF (List.filter (fun p => decide (p.2 ≠ []))
          [("status".data, "active".data), ("zebra".data, "x".data)]) ("zebra".data) := by
  have h := parse_serialize_roundtrip
    [("status".data, "active".data), ("zebra".data, "x".data)] ("B".data)
    (by decide) (by decide) (by decide) (by decide)
  exact ⟨h.1, h.2 ("zebra".data)⟩

end Planc
